import Mathlib

/-!
Verification of the ZymCTRL generation-and-ranking pipeline
(src/scripts/generate.py) and its workflow wiring (src/wf/task.py,
src/wf/__init__.py).

Decoded text is `List Char`; token ids are `Nat`; perplexities (float64 in
the source) are `ℚ`; a Python exception is `Option.none`.  The model and
tokenizer are external collaborators and appear as function parameters.
-/

namespace ZymCTRL

/-- `leadsWith p s` holds when `p` is a prefix of `s`: a substring match of
the pattern at the current scan position, as used by Python's
`str.split` / `str.replace` left-to-right scans. -/
def leadsWith : List Char → List Char → Bool
  | [], _ => true
  | _ :: _, [] => false
  | p :: ps, c :: cs => p == c && leadsWith ps cs

/-- The text after the end of the first occurrence of `pat` (left-to-right
scan); `none` when `pat` never occurs.  When a match starts at the current
character, the whole match (that character plus `pat.length - 1` more) is
consumed. -/
def afterFirst (pat : List Char) : List Char → Option (List Char)
  | [] => none
  | c :: cs =>
    if leadsWith pat (c :: cs) then some (List.drop (pat.length - 1) cs)
    else afterFirst pat cs

/-- The text strictly before the first occurrence of `pat`; the whole text
when `pat` never occurs. -/
def takeUntil (pat : List Char) : List Char → List Char
  | [] => []
  | c :: cs =>
    if leadsWith pat (c :: cs) then []
    else c :: takeUntil pat cs

/-- `pat` occurs somewhere in the text. -/
def hasOcc (pat s : List Char) : Bool :=
  (afterFirst pat s).isSome

/-- Worker for `removeOcc`.  The `Nat` is the number of characters still to
be deleted from an occurrence already matched; at `0` the scanner tests for
a fresh occurrence.  Structural recursion on the text keeps every
definition kernel-evaluable. -/
def removeGo (old : List Char) : Nat → List Char → List Char
  | _, [] => []
  | Nat.succ k, _ :: cs => removeGo old k cs
  | 0, c :: cs =>
    if leadsWith old (c :: cs) then removeGo old (old.length - 1) cs
    else c :: removeGo old 0 cs

/-- Python `s.replace(old, "")`: delete every non-overlapping occurrence of
`old`, scanning left to right.  (The source never calls it with an empty
pattern.) -/
def removeOcc (old s : List Char) : List Char :=
  removeGo old 0 s

/-- Worker for `splitOnL`.  The `Nat` is the number of separator characters
still to be skipped; the accumulator holds the current column reversed. -/
def splitGo (sep : List Char) : Nat → List Char → List Char → List (List Char)
  | _, acc, [] => [acc.reverse]
  | Nat.succ k, acc, _ :: cs => splitGo sep k acc cs
  | 0, acc, c :: cs =>
    if leadsWith sep (c :: cs) then acc.reverse :: splitGo sep (sep.length - 1) [] cs
    else splitGo sep 0 (c :: acc) cs

/-- Python `s.split(sep)` for a non-empty separator: the columns between
non-overlapping occurrences of `sep`, scanning left to right. -/
def splitOnL (sep s : List Char) : List (List Char) :=
  splitGo sep 0 [] s

/-- Shorthand turning a string literal into the character list it denotes. -/
def strL (s : String) : List Char :=
  s.toList

/-! ## src/scripts/generate.py -/

/-- The separator marker between the EC-number echo and the generated
payload, hard-coded in `remove_characters` (generate.py line 15). -/
def sepTok : List Char :=
  strL "<sep>"

/-- generate.py line 87: the structural tokens stripped during cleaning,
in source order. -/
def special_tokens : List (List Char) :=
  [strL "<start>", strL "<end>", strL "<|endoftext|>",
   strL "<pad>", strL " ", strL "<sep>"]

/-- generate.py lines 13-19 (`remove_characters`): split the decoded text
on the separator marker, take column 1, then delete every occurrence of
every listed token in order.  When the text has no separator, `columns`
has a single element and `columns[1]` raises IndexError: `none` here. -/
def remove_characters (sequence : List Char) (char_list : List (List Char)) :
    Option (List Char) :=
  match (splitOnL sepTok sequence).get? 1 with
  | none => none
  | some seq => some (char_list.foldl (fun acc ch => removeOcc ch acc) seq)

/-- generate.py line 46: keep a sampled output only when its final token is
the pad token id 0 (the sign that generation terminated naturally rather
than at the 1024-token cap). -/
def truncationFilter (outputs : List (List Nat)) : List (List Nat) :=
  outputs.filter (fun output => output.getLast? == some 0)

/-- generate.py lines 47-48: the diagnostic message is printed exactly when
the truncation filter keeps nothing. -/
def emptyBatchWarning (outputs : List (List Nat)) : Bool :=
  truncationFilter outputs == []

/-- One step of the stable sort on scored candidates: insert before the
first element of greater-or-equal perplexity, so an element entering from
the left stays ahead of equal scores that followed it in the batch. -/
def insertByPpl (x : List Char × ℚ) :
    List (List Char × ℚ) → List (List Char × ℚ)
  | [] => [x]
  | y :: ys => if x.2 ≤ y.2 then x :: y :: ys else y :: insertByPpl x ys

/-- generate.py line 57, `ppls.sort(key=lambda i: i[1])`: Python's sort is
a stable ascending sort by the key; a stable sort's output is uniquely
determined by the key order, so insertion sort by perplexity is the same
function. -/
def sortByPpl : List (List Char × ℚ) → List (List Char × ℚ)
  | [] => []
  | x :: xs => insertByPpl x (sortByPpl xs)

/-- generate.py line 61: the list comprehension cleaning every scored
candidate.  An IndexError from `remove_characters` propagates out of the
comprehension, so one malformed candidate makes the whole result `none`. -/
def cleanAll (char_list : List (List Char)) :
    List (List Char × ℚ) → Option (List (List Char × ℚ))
  | [] => some []
  | x :: xs =>
    match remove_characters x.1 char_list, cleanAll char_list xs with
    | some c, some rest => some ((c, x.2) :: rest)
    | _, _ => none

/-- generate.py lines 30-63 (`main`) for one batch: the sampled outputs are
abstracted as the `outputs` argument (the model is an external
collaborator), `decode` is `tokenizer.decode` and `pplOf` abstracts the
finite results of `calculatePerplexity` (an evaluation-only call on the
model; the variant with its OverflowError made explicit is
`mainPipelineChecked` below).  Filter the truncated sequences out, pair
each survivor with its decoded text and perplexity, sort ascending by
perplexity, then clean; the source stores the final list under the single
key `label` of a dictionary, and that list is the value modelled here. -/
def mainPipeline (decode : List Nat → List Char) (pplOf : List Nat → ℚ)
    (char_list : List (List Char)) (outputs : List (List Nat)) :
    Option (List (List Char × ℚ)) :=
  let new_outputs := truncationFilter outputs
  let ppls := new_outputs.map (fun output => (decode output, pplOf output))
  cleanAll char_list (sortByPpl ppls)

/-- The natural logarithm of the largest finite float64
(DBL_MAX = 2^1024 - 2^971) as the decimal constant 709.782712893384:
Python's `math.exp` returns a finite float at this argument and raises
OverflowError ("math range error") for every float strictly above it — it
does not return +Infinity for finite arguments.  (The constant is
log(DBL_MAX) to 15 significant digits, the boundary checked against
CPython; every concrete loss evaluated in this file is far from it.) -/
def expOverflowThreshold : ℚ :=
  mkRat 709782712893384 1000000000000

/-- generate.py lines 22-27 (`calculatePerplexity`): the forward pass
yields the average negative log-likelihood `loss` — a finite float64
produced by the external model, modelled as a rational — and the function
returns `math.exp(loss)`.  An exponential that overflows the float64 range
raises OverflowError, a hard uncaught error modelled as `none`, rather
than producing +Infinity; in-range results are abstracted by the
`expFinite` parameter, since the embedding does not model real-valued
exponentiation. -/
def calculatePerplexity (expFinite : ℚ → ℚ) (loss : ℚ) : Option ℚ :=
  if expOverflowThreshold < loss then none else some (expFinite loss)

/-- generate.py lines 50-54 with the scorer's possible OverflowError made
explicit: the comprehension pairing each surviving output with its decoded
text and perplexity aborts as a whole when any scorer call raises. -/
def scoreAll (decode : List Nat → List Char) (pplOf : List Nat → Option ℚ) :
    List (List Nat) → Option (List (List Char × ℚ))
  | [] => some []
  | o :: os =>
    match pplOf o, scoreAll decode pplOf os with
    | some p, some rest => some ((decode o, p) :: rest)
    | _, _ => none

/-- `main` (generate.py lines 30-63) with `calculatePerplexity`'s possible
OverflowError propagated.  With an overflow-free scorer this agrees with
`mainPipeline` (lemma `mainPipelineChecked_total` below); when any
surviving candidate's score overflows, the whole batch aborts. -/
def mainPipelineChecked (decode : List Nat → List Char)
    (pplOf : List Nat → Option ℚ) (char_list : List (List Char))
    (outputs : List (List Nat)) : Option (List (List Char × ℚ)) :=
  match scoreAll decode pplOf (truncationFilter outputs) with
  | none => none
  | some ppls => cleanAll char_list (sortByPpl ppls)

/-- One persisted record from generate.py lines 101-107: the file
`{label}_{i}_{index}.fasta` holding the header key, the perplexity and the
cleaned sequence. -/
structure Artifact where
  label : List Char
  batchIdx : Nat
  rankIdx : Nat
  seq : List Char
  ppl : ℚ
deriving DecidableEq

/-- The identity key of a persisted artifact: `(label, batch, rank)`. -/
def keyOf (a : Artifact) : List Char × Nat × Nat :=
  (a.label, a.batchIdx, a.rankIdx)

/-- Python `enumerate` starting at `n`. -/
def enumFromL (n : Nat) : List α → List (Nat × α)
  | [] => []
  | x :: xs => (n, x) :: enumFromL (n + 1) xs

/-- The artifacts written for one batch `i` (generate.py lines 101-107):
one record per position of the ranked, cleaned value list; `none` when the
batch raised. -/
def batchArtifacts (decode : List Nat → List Char) (pplOf : List Nat → ℚ)
    (char_list : List (List Char)) (ec : List Char) (i : Nat)
    (outs : List (List Nat)) : Option (List Artifact) :=
  (mainPipeline decode pplOf char_list outs).map (fun value =>
    (enumFromL 0 value).map (fun p => Artifact.mk ec i p.1 p.2.1 p.2.2))

/-- The batch loop of generate.py lines 92-107: batches run in the given
index order and an exception in any batch aborts the run. -/
def collectBatches (f : Nat → Option (List Artifact)) :
    List Nat → Option (List Artifact)
  | [] => some []
  | i :: is =>
    match f i, collectBatches f is with
    | some l, some rest => some (l ++ rest)
    | _, _ => none

/-- generate.py lines 92-107 (`__main__` body after setup): run
`num_batches` batches — `i in range(int(args.num_batches))` — where batch
`i` samples the outputs `gen i`, and record every artifact written. -/
def runArtifacts (decode : List Nat → List Char) (pplOf : List Nat → ℚ)
    (char_list : List (List Char)) (ec : List Char) (num_batches : Nat)
    (gen : Nat → List (List Nat)) : Option (List Artifact) :=
  collectBatches
    (fun i => batchArtifacts decode pplOf char_list ec i (gen i))
    (List.range num_batches)

/-! ## src/wf/__init__.py and src/wf/task.py interface wiring -/

/-- The parameters of `zymctrl_task` (src/wf/task.py lines 15-24), in
declaration order. -/
def zymctrl_task_params : List String :=
  ["run_name", "mode", "ec_numbers", "num_sequences", "training_fasta",
   "epochs", "output_directory"]

/-- The parameters of `zymctrl_task` without a default value: a call must
supply each of them. -/
def zymctrl_task_required : List String :=
  ["run_name", "mode", "ec_numbers", "num_sequences"]

/-- The keyword arguments `zymctrl_workflow` passes to `zymctrl_task`
(src/wf/__init__.py lines 184-193). -/
def zymctrl_workflow_call : List String :=
  ["run_name", "ec_numbers", "training_fasta", "epochs", "num_batches",
   "num_return_sequences", "validation_split", "output_directory"]

/-- Python keyword-call semantics: a call is accepted only when every
keyword names a declared parameter and every parameter without a default
receives a value; otherwise a TypeError is raised before the body runs. -/
def kwCallAccepted (params required kwargs : List String) : Bool :=
  kwargs.all (fun k => params.contains k) &&
    required.all (fun r => kwargs.contains r)

/-- The option flags `generate.py`'s argument parser declares
(generate.py lines 67-78). -/
def generate_cli_flags : List String :=
  ["--ec_number", "--output_dir", "--model_path", "--num_batches",
   "--num_return_sequences"]

/-- The flags `zymctrl_task` passes when it invokes `generate.py`
(src/wf/task.py lines 141-157). -/
def task_generate_flags : List String :=
  ["--ec_number", "--output_dir", "--batch_id", "--model_path",
   "--num_sequences"]

/-- argparse semantics for this parser: `parse_args` succeeds only when
every passed flag is declared; an unrecognized flag makes it exit with an
error, before the model is loaded or any sampling happens (parsing is at
generate.py line 79, model loading at lines 85-86). -/
def cliCallAccepted (declared passed : List String) : Bool :=
  passed.all (fun f => declared.contains f)

/-- A Python runtime value as far as the argument plumbing distinguishes
them: a string or an integer. -/
inductive PyVal where
  | str : String → PyVal
  | int : Int → PyVal
deriving DecidableEq

/-- `argparse.add_argument` without a `type` converter stores strings;
generate.py lines 76-78 declare `--num_return_sequences` with the string
default `"20"` and no converter. -/
def args_num_return_sequences : PyVal :=
  PyVal.str "20"

/-- generate.py line 75: `--num_batches` likewise defaults to the string
`"20"`. -/
def args_num_batches : PyVal :=
  PyVal.str "20"

/-- Decimal-digit accumulation for `pyInt`. -/
def digitsToNat (acc : Nat) : List Char → Option Nat
  | [] => some acc
  | c :: cs =>
    if '0'.toNat ≤ c.toNat ∧ c.toNat ≤ '9'.toNat then
      digitsToNat (acc * 10 + (c.toNat - '0'.toNat)) cs
    else none

/-- Python `int(x)` on the value shapes the source feeds it: an integer is
returned unchanged and a non-empty string of decimal digits is parsed
(`int` raises — `none` — on anything else). -/
def pyInt : PyVal → Option Int
  | PyVal.str s =>
    match s.toList with
    | [] => none
    | c :: cs => (digitsToNat 0 (c :: cs)).map Int.ofNat
  | PyVal.int n => some n

/-- generate.py line 92: the loop bound is `int(args.num_batches)` — the
batch count is converted. -/
def loop_bound : Option Int :=
  pyInt args_num_batches

/-- generate.py line 99: `args.num_return_sequences` is forwarded to
`main` — and from there to `model.generate` — with no conversion. -/
def forwarded_num_return_sequences : PyVal :=
  args_num_return_sequences

/-- Whether a value is an integer, the type the Sequence Model Adapter
contract requires for the sample count `n`. -/
def isIntVal : PyVal → Bool
  | PyVal.int _ => true
  | PyVal.str _ => false

/-! ## Definitions taken from the specification's wording
(for refinement comparisons only; the source is the authority) -/

/-- Spec wording for claim C3: keep all of the content after the first
separator occurrence, then delete every occurrence of every structural
token — including any recurring separator — from that remaining text. -/
def claimC3Clean (s : List Char) : Option (List Char) :=
  (afterFirst sepTok s).map
    (fun rest => special_tokens.foldl (fun acc ch => removeOcc ch acc) rest)

/-! ## Lemmas about the Ranker's sort -/

theorem insertByPpl_perm (x : List Char × ℚ) (l : List (List Char × ℚ)) :
    (insertByPpl x l).Perm (x :: l) := by
  induction l with
  | nil => simp [insertByPpl]
  | cons y ys ih =>
    by_cases h : x.2 ≤ y.2
    · simp [insertByPpl, h]
    · simp only [insertByPpl, if_neg h]
      exact (ih.cons y).trans (List.Perm.swap x y ys)

theorem sortByPpl_perm (l : List (List Char × ℚ)) : (sortByPpl l).Perm l := by
  induction l with
  | nil => simp [sortByPpl]
  | cons x xs ih => exact (insertByPpl_perm x (sortByPpl xs)).trans (ih.cons x)

theorem insertByPpl_pairwise (x : List Char × ℚ) (l : List (List Char × ℚ))
    (hl : l.Pairwise (fun a b => a.2 ≤ b.2)) :
    (insertByPpl x l).Pairwise (fun a b => a.2 ≤ b.2) := by
  induction l with
  | nil => simp [insertByPpl]
  | cons y ys ih =>
    rcases List.pairwise_cons.1 hl with ⟨hy, hys⟩
    by_cases h : x.2 ≤ y.2
    · simp only [insertByPpl, if_pos h]
      refine List.pairwise_cons.2 ⟨?_, hl⟩
      intro b hb
      rcases List.mem_cons.1 hb with rfl | hb
      · exact h
      · exact le_trans h (hy b hb)
    · simp only [insertByPpl, if_neg h]
      refine List.pairwise_cons.2 ⟨?_, ih hys⟩
      intro b hb
      rcases List.mem_cons.1 ((insertByPpl_perm x ys).mem_iff.1 hb) with rfl | hb
      · exact le_of_not_le h
      · exact hy b hb

theorem sortByPpl_pairwise (l : List (List Char × ℚ)) :
    (sortByPpl l).Pairwise (fun a b => a.2 ≤ b.2) := by
  induction l with
  | nil => simp [sortByPpl]
  | cons x xs ih => exact insertByPpl_pairwise x (sortByPpl xs) ih

theorem insertByPpl_filter (v : ℚ) (x : List Char × ℚ) (l : List (List Char × ℚ)) :
    (insertByPpl x l).filter (fun a => decide (a.2 = v)) =
      if x.2 = v then x :: l.filter (fun a => decide (a.2 = v))
      else l.filter (fun a => decide (a.2 = v)) := by
  induction l with
  | nil =>
    by_cases hx : x.2 = v <;> simp [insertByPpl, List.filter, hx]
  | cons y ys ih =>
    by_cases h : x.2 ≤ y.2
    · simp only [insertByPpl, if_pos h, List.filter_cons]
      by_cases hx : x.2 = v <;> simp [hx]
    · simp only [insertByPpl, if_neg h, List.filter_cons, ih]
      by_cases hx : x.2 = v
      · have hyv : ¬ y.2 = v := by
          intro hy
          exact h (le_of_eq (hx.trans hy.symm))
        simp [hx, hyv]
      · simp [hx]

theorem sortByPpl_filter (v : ℚ) (l : List (List Char × ℚ)) :
    (sortByPpl l).filter (fun a => decide (a.2 = v)) =
      l.filter (fun a => decide (a.2 = v)) := by
  induction l with
  | nil => simp [sortByPpl]
  | cons x xs ih =>
    simp only [sortByPpl, insertByPpl_filter, ih, List.filter_cons]
    by_cases hx : x.2 = v <;> simp [hx]

/-! ## Lemmas about the Token Cleaner's scanning primitives -/

theorem splitGo_skip (sep : List Char) (cs : List Char) :
    ∀ (k : Nat) (acc : List Char),
      splitGo sep k acc cs = splitGo sep 0 acc (List.drop k cs) := by
  induction cs with
  | nil => intro k acc; cases k <;> simp [splitGo]
  | cons c cs ih =>
    intro k acc
    cases k with
    | zero => simp
    | succ k => simpa [splitGo] using ih k acc

/-- The columns `split` produces after the first separator occurrence:
empty when there is none, otherwise the split of the remaining text. -/
def tailSplit (sep s : List Char) : List (List Char) :=
  match afterFirst sep s with
  | none => []
  | some r => splitGo sep 0 [] r

theorem splitGo_zero (sep : List Char) (s : List Char) :
    ∀ acc : List Char,
      splitGo sep 0 acc s = (acc.reverse ++ takeUntil sep s) :: tailSplit sep s := by
  induction s with
  | nil => intro acc; simp [splitGo, takeUntil, tailSplit, afterFirst]
  | cons c cs ih =>
    intro acc
    by_cases h : leadsWith sep (c :: cs) = true
    · simp only [splitGo, if_pos h, takeUntil, tailSplit, afterFirst]
      simp [splitGo_skip, h]
    · simp only [splitGo, if_neg h, takeUntil, tailSplit, afterFirst, ih (c :: acc)]
      simp [h, tailSplit]

theorem splitOnL_get1 (sep s : List Char) :
    (splitOnL sep s).get? 1 = (afterFirst sep s).map (takeUntil sep) := by
  unfold splitOnL
  rw [splitGo_zero]
  cases h : afterFirst sep s with
  | none => simp [tailSplit, h]
  | some r =>
    simp only [tailSplit, h]
    rw [splitGo_zero]
    simp

theorem remove_characters_of_afterFirst {s r : List Char}
    (h : afterFirst sepTok s = some r) (char_list : List (List Char)) :
    remove_characters s char_list =
      some (char_list.foldl (fun acc ch => removeOcc ch acc) (takeUntil sepTok r)) := by
  unfold remove_characters
  rw [splitOnL_get1, h]
  simp

theorem remove_characters_none_iff (s : List Char) (char_list : List (List Char)) :
    remove_characters s char_list = none ↔ hasOcc sepTok s = false := by
  unfold remove_characters hasOcc
  rw [splitOnL_get1]
  cases afterFirst sepTok s <;> simp

theorem leadsWith_append_drop {p : List Char} :
    ∀ {l : List Char}, leadsWith p l = true → p ++ List.drop p.length l = l := by
  induction p with
  | nil => intro l _; simp
  | cons a ps ih =>
    intro l h
    cases l with
    | nil => simp [leadsWith] at h
    | cons c cs =>
      simp only [leadsWith, Bool.and_eq_true, beq_iff_eq] at h
      rcases h with ⟨rfl, h2⟩
      have h3 := ih h2
      simp only [List.length_cons, List.cons_append, List.drop_succ_cons, h3]

theorem afterFirst_decomp {pat : List Char} (hne : pat ≠ []) :
    ∀ {s r : List Char}, afterFirst pat s = some r → ∃ pre, s = pre ++ pat ++ r := by
  intro s
  induction s with
  | nil => intro r h; simp [afterFirst] at h
  | cons c cs ih =>
    intro r h
    by_cases hl : leadsWith pat (c :: cs) = true
    · refine ⟨[], ?_⟩
      simp only [afterFirst, if_pos hl, Option.some.injEq] at h
      rcases pat with _ | ⟨p, ps⟩
      · exact absurd rfl hne
      · subst h
        simpa using (leadsWith_append_drop hl).symm
    · simp only [afterFirst, if_neg hl] at h
      rcases ih h with ⟨pre, hpre⟩
      exact ⟨c :: pre, by simp [hpre]⟩

theorem mem_of_hasOcc {pat s : List Char} (hne : pat ≠ [])
    (h : hasOcc pat s = true) : ∀ a ∈ pat, a ∈ s := by
  unfold hasOcc at h
  cases hr : afterFirst pat s with
  | none => rw [hr] at h; simp at h
  | some r =>
    rcases afterFirst_decomp hne hr with ⟨pre, rfl⟩
    intro a ha
    simp [ha]

theorem removeOcc_of_not_occ {pat : List Char} :
    ∀ {s : List Char}, hasOcc pat s = false → removeOcc pat s = s := by
  intro s
  unfold hasOcc removeOcc
  induction s with
  | nil => intro _; simp [removeGo]
  | cons c cs ih =>
    intro h
    by_cases hl : leadsWith pat (c :: cs) = true
    · simp [afterFirst, hl] at h
    · simp only [afterFirst, if_neg hl] at h
      simp [removeGo, hl, ih h]

theorem foldl_removeOcc_of_not_occ {s : List Char} :
    ∀ {cl : List (List Char)}, (∀ t ∈ cl, hasOcc t s = false) →
      cl.foldl (fun acc ch => removeOcc ch acc) s = s := by
  intro cl
  induction cl with
  | nil => intro _; simp
  | cons t ts ih =>
    intro h
    have h1 : removeOcc t s = s := removeOcc_of_not_occ (h t (by simp))
    simp only [List.foldl_cons, h1]
    exact ih (fun u hu => h u (by simp [hu]))

/-! ## Lemmas about cleaning, enumeration and the batch loop -/

theorem cleanAll_none_of_mem {char_list : List (List Char)} :
    ∀ {l : List (List Char × ℚ)},
      (∃ x ∈ l, remove_characters x.1 char_list = none) →
      cleanAll char_list l = none := by
  intro l
  induction l with
  | nil => rintro ⟨x, hx, _⟩; simp at hx
  | cons x xs ih =>
    rintro ⟨y, hy, hrc⟩
    rcases List.mem_cons.1 hy with rfl | hy
    · simp [cleanAll, hrc]
    · have hxs : cleanAll char_list xs = none := ih ⟨y, hy, hrc⟩
      cases h1 : remove_characters x.1 char_list <;> simp [cleanAll, h1, hxs]

theorem scoreAll_total (decode : List Nat → List Char) (pplOf : List Nat → ℚ) :
    ∀ l : List (List Nat),
      scoreAll decode (fun o => some (pplOf o)) l =
        some (l.map (fun o => (decode o, pplOf o))) := by
  intro l
  induction l with
  | nil => rfl
  | cons o os ih => simp [scoreAll, ih]

theorem mainPipelineChecked_total (decode : List Nat → List Char)
    (pplOf : List Nat → ℚ) (char_list : List (List Char))
    (outputs : List (List Nat)) :
    mainPipelineChecked decode (fun o => some (pplOf o)) char_list outputs =
      mainPipeline decode pplOf char_list outputs := by
  simp [mainPipelineChecked, mainPipeline, scoreAll_total]

theorem scoreAll_none_of_mem {decode : List Nat → List Char}
    {pplOf : List Nat → Option ℚ} :
    ∀ {l : List (List Nat)}, (∃ o ∈ l, pplOf o = none) →
      scoreAll decode pplOf l = none := by
  intro l
  induction l with
  | nil => rintro ⟨o, ho, _⟩; simp at ho
  | cons x xs ih =>
    rintro ⟨o, ho, hnone⟩
    rcases List.mem_cons.1 ho with rfl | ho
    · simp [scoreAll, hnone]
    · have hxs := ih ⟨o, ho, hnone⟩
      cases h1 : pplOf x <;> simp [scoreAll, h1, hxs]

theorem enumFromL_mem {α : Type _} :
    ∀ {v : List α} {n : Nat} {p : Nat × α}, p ∈ enumFromL n v →
      n ≤ p.1 ∧ v.get? (p.1 - n) = some p.2 := by
  intro v
  induction v with
  | nil => intro n p h; simp [enumFromL] at h
  | cons x xs ih =>
    intro n p h
    rcases List.mem_cons.1 h with rfl | h
    · simp
    · rcases ih h with ⟨h1, h2⟩
      refine ⟨le_trans (Nat.le_succ n) h1, ?_⟩
      have hk : p.1 - n = (p.1 - (n + 1)) + 1 := by omega
      rw [hk]
      simpa using h2

theorem enumFromL_pairwise {α : Type _} :
    ∀ (v : List α) (n : Nat),
      (enumFromL n v).Pairwise (fun p q => p.1 < q.1) := by
  intro v
  induction v with
  | nil => intro n; simp [enumFromL]
  | cons x xs ih =>
    intro n
    refine List.pairwise_cons.2 ⟨?_, ih (n + 1)⟩
    intro q hq
    have := (enumFromL_mem hq).1
    omega

theorem batchArtifacts_struct {decode : List Nat → List Char}
    {pplOf : List Nat → ℚ} {char_list : List (List Char)} {ec : List Char}
    {i : Nat} {outs : List (List Nat)} {l : List Artifact}
    (h : batchArtifacts decode pplOf char_list ec i outs = some l) :
    ∃ value, mainPipeline decode pplOf char_list outs = some value ∧
      l = (enumFromL 0 value).map (fun p => Artifact.mk ec i p.1 p.2.1 p.2.2) := by
  unfold batchArtifacts at h
  cases hm : mainPipeline decode pplOf char_list outs with
  | none => rw [hm] at h; simp at h
  | some value =>
    rw [hm] at h
    simp at h
    exact ⟨value, rfl, h.symm⟩

theorem batchArtifacts_fields {decode : List Nat → List Char}
    {pplOf : List Nat → ℚ} {char_list : List (List Char)} {ec : List Char}
    {i : Nat} {outs : List (List Nat)} {l : List Artifact}
    (h : batchArtifacts decode pplOf char_list ec i outs = some l) :
    ∀ a ∈ l, a.batchIdx = i ∧ a.label = ec ∧
      ∃ value, mainPipeline decode pplOf char_list outs = some value ∧
        value.get? a.rankIdx = some (a.seq, a.ppl) := by
  rcases batchArtifacts_struct h with ⟨value, hm, rfl⟩
  intro a ha
  rcases List.mem_map.1 ha with ⟨p, hp, rfl⟩
  have := (enumFromL_mem hp).2
  simp only [Nat.sub_zero] at this
  exact ⟨rfl, rfl, value, hm, this⟩

theorem batchArtifacts_keys_nodup {decode : List Nat → List Char}
    {pplOf : List Nat → ℚ} {char_list : List (List Char)} {ec : List Char}
    {i : Nat} {outs : List (List Nat)} {l : List Artifact}
    (h : batchArtifacts decode pplOf char_list ec i outs = some l) :
    (l.map keyOf).Nodup := by
  rcases batchArtifacts_struct h with ⟨value, _, rfl⟩
  rw [List.map_map]
  have hp := enumFromL_pairwise value 0
  exact hp.map _ (by
    intro p q hlt heq
    simp only [Function.comp, keyOf, Prod.mk.injEq] at heq
    omega)

theorem collectBatches_mem_struct (f : Nat → Option (List Artifact)) :
    ∀ (is : List Nat) (arts : List Artifact),
      collectBatches f is = some arts →
      ∀ a ∈ arts, ∃ i ∈ is, ∃ l, f i = some l ∧ a ∈ l := by
  intro is
  induction is with
  | nil =>
    intro arts h a ha
    simp only [collectBatches, Option.some.injEq] at h
    subst h
    simp at ha
  | cons i is ih =>
    intro arts h a ha
    cases hf : f i with
    | none => simp [collectBatches, hf] at h
    | some l =>
      cases hc : collectBatches f is with
      | none => simp [collectBatches, hf, hc] at h
      | some rest =>
        simp only [collectBatches, hf, hc, Option.some.injEq] at h
        subst h
        rcases List.mem_append.1 ha with hl | hr
        · exact ⟨i, by simp, l, hf, hl⟩
        · rcases ih rest hc a hr with ⟨j, hj, l2, hfl2, hal2⟩
          exact ⟨j, by simp [hj], l2, hfl2, hal2⟩

theorem collectBatches_some_of_forall (f : Nat → Option (List Artifact)) :
    ∀ is : List Nat, (∀ i ∈ is, (f i).isSome = true) →
      ∃ arts, collectBatches f is = some arts := by
  intro is
  induction is with
  | nil => intro _; exact ⟨[], rfl⟩
  | cons i is ih =>
    intro h
    have hfi := h i (by simp)
    cases hf : f i with
    | none => rw [hf] at hfi; simp at hfi
    | some l =>
      rcases ih (fun j hj => h j (by simp [hj])) with ⟨rest, hc⟩
      exact ⟨l ++ rest, by simp [collectBatches, hf, hc]⟩

theorem runArtifacts_batch_mem {decode : List Nat → List Char}
    {pplOf : List Nat → ℚ} {char_list : List (List Char)} {ec : List Char}
    {gen : Nat → List (List Nat)} :
    ∀ {is : List Nat} {arts : List Artifact},
      collectBatches (fun i => batchArtifacts decode pplOf char_list ec i (gen i))
          is = some arts →
      ∀ a ∈ arts, a.batchIdx ∈ is ∧ a.label = ec ∧
        ∃ value, mainPipeline decode pplOf char_list (gen a.batchIdx) = some value ∧
          value.get? a.rankIdx = some (a.seq, a.ppl) := by
  intro is arts h a ha
  rcases collectBatches_mem_struct _ is arts h a ha with ⟨j, hj, l, hfl, hal⟩
  rcases batchArtifacts_fields hfl a hal with ⟨hb, hlab, value, hm, hv⟩
  subst hb
  exact ⟨hj, hlab, value, hm, hv⟩

theorem runArtifacts_keys_nodup {decode : List Nat → List Char}
    {pplOf : List Nat → ℚ} {char_list : List (List Char)} {ec : List Char}
    {gen : Nat → List (List Nat)} :
    ∀ {is : List Nat} {arts : List Artifact},
      collectBatches (fun i => batchArtifacts decode pplOf char_list ec i (gen i))
          is = some arts →
      is.Pairwise (· < ·) →
      (arts.map keyOf).Nodup ∧ arts.Pairwise (fun a b => a.batchIdx ≤ b.batchIdx) := by
  intro is
  induction is with
  | nil =>
    intro arts h _
    simp only [collectBatches, Option.some.injEq] at h
    subst h
    simp
  | cons i is ih =>
    intro arts h hp
    cases hf : batchArtifacts decode pplOf char_list ec i (gen i) with
    | none => simp [collectBatches, hf] at h
    | some l =>
      cases hc : collectBatches
          (fun i => batchArtifacts decode pplOf char_list ec i (gen i)) is with
      | none => simp [collectBatches, hf, hc] at h
      | some rest =>
        simp only [collectBatches, hf, hc, Option.some.injEq] at h
        subst h
        rcases List.pairwise_cons.1 hp with ⟨hi, his⟩
        rcases ih hc his with ⟨hnodup, hpair⟩
        have hbatchl : ∀ a ∈ l, a.batchIdx = i :=
          fun a hal => (batchArtifacts_fields hf a hal).1
        have hbatchr : ∀ b ∈ rest, i < b.batchIdx := by
          intro b hbr
          have := (runArtifacts_batch_mem hc b hbr).1
          exact hi _ this
        constructor
        · rw [List.map_append, List.nodup_append]
          refine ⟨batchArtifacts_keys_nodup hf, hnodup, ?_⟩
          intro k hk1 hk2
          rcases List.mem_map.1 hk1 with ⟨a, hal, rfl⟩
          rcases List.mem_map.1 hk2 with ⟨b, hbr, hkb⟩
          have h1 : a.batchIdx = i := hbatchl a hal
          have h2 : i < b.batchIdx := hbatchr b hbr
          have : a.batchIdx = b.batchIdx := by
            have := congrArg (fun k => k.2.1) hkb
            simpa [keyOf] using this.symm
          omega
        · rw [List.pairwise_append]
          refine ⟨?_, hpair, ?_⟩
          · exact List.pairwise_of_forall_mem_list (fun a hal b hbl => by
              rw [hbatchl a hal, hbatchl b hbl])
          · intro a hal b hbr
            rw [hbatchl a hal]
            exact le_of_lt (hbatchr b hbr)

/-! ## Claim theorems -/

/-- C1: the Ranker (the sort at generate.py line 57) returns a permutation
of its input — same multiset of scored candidates, none dropped or added —
sorted non-decreasing by perplexity, and the sort is stable: for every
perplexity value the candidates carrying it appear in the output in their
original batch order, so equal-perplexity candidates keep their relative
order. -/
theorem ranker_stable_sort (xs : List (List Char × ℚ)) :
    (sortByPpl xs).Perm xs ∧
    (sortByPpl xs).Pairwise (fun a b => a.2 ≤ b.2) ∧
    ∀ v : ℚ, (sortByPpl xs).filter (fun a => decide (a.2 = v)) =
      xs.filter (fun a => decide (a.2 = v)) :=
  ⟨sortByPpl_perm xs, sortByPpl_pairwise xs, fun v => sortByPpl_filter v xs⟩

/-- C2: the truncation filter keeps a sampled sequence iff its final token
is the pad id 0; the survivors form a sublist of the batch (order kept,
nothing added) and their number equals the count of pad-terminated inputs —
so of 5 samples of which exactly 2 end in the pad token, exactly those 2
are returned, and non-pad-terminated sequences never reach scoring. -/
theorem truncation_filter_keeps_pad_terminated (outputs : List (List Nat))
    (o : List Nat) :
    (o ∈ truncationFilter outputs ↔ o ∈ outputs ∧ o.getLast? = some 0) ∧
    (truncationFilter outputs).Sublist outputs ∧
    (truncationFilter outputs).length =
      outputs.countP (fun o => o.getLast? == some 0) := by
  refine ⟨?_, List.filter_sublist _, ?_⟩
  · simp [truncationFilter, List.mem_filter]
  · simp [truncationFilter, List.countP_eq_length_filter]

/-- C3 counterexample: on a decoded text with a second separator the source
keeps only the column between the first two separators, while cleaning as
the claim words it — keep everything after the first separator, then strip
every structural token including the recurring separator — would keep the
later content too. -/
theorem token_cleaner_second_sep_cex :
    remove_characters (strL "1.1.1.1<sep>MKV<sep>AAA") special_tokens =
      some (strL "MKV") ∧
    claimC3Clean (strL "1.1.1.1<sep>MKV<sep>AAA") = some (strL "MKVAAA") ∧
    strL "MKV" ≠ strL "MKVAAA" :=
  ⟨by decide, by decide, by decide⟩

/-- C3 amended: for every decoded string containing a separator, the Token
Cleaner keeps the content after the first separator only up to the next
separator occurrence (the second split column) — content after a recurring
separator is discarded, not cleaned — and removes every occurrence of each
structural token from that segment. -/
theorem token_cleaner_second_column (s r : List Char)
    (h : afterFirst sepTok s = some r) :
    remove_characters s special_tokens =
      some (special_tokens.foldl (fun acc ch => removeOcc ch acc)
        (takeUntil sepTok r)) :=
  remove_characters_of_afterFirst h special_tokens

theorem token_cleaner_second_column_witness :
    afterFirst sepTok (strL "1.1.1.1<sep>MKV<pad>") = some (strL "MKV<pad>") ∧
    remove_characters (strL "1.1.1.1<sep>MKV<pad>") special_tokens =
      some (special_tokens.foldl (fun acc ch => removeOcc ch acc)
        (takeUntil sepTok (strL "MKV<pad>"))) ∧
    special_tokens.foldl (fun acc ch => removeOcc ch acc)
      (takeUntil sepTok (strL "MKV<pad>")) = strL "MKV" :=
  ⟨by decide, token_cleaner_second_column _ _ (by decide), by decide⟩

/-- C4 counterexample: a second invocation of the generation script for the
same label and output directory restarts the batch counter at 0 and so
rewrites the key (label, 0, 0): the keys written across the repeated
invocations are not collision-free. -/
theorem persistence_keys_cross_invocation_cex :
    runArtifacts (fun _ => strL "1.1.1.1<sep>MKV<pad>") (fun _ => 2)
      special_tokens (strL "1.1.1.1") 1 (fun _ => [[0]]) =
      some [Artifact.mk (strL "1.1.1.1") 0 0 (strL "MKV") 2] ∧
    ¬ ((([Artifact.mk (strL "1.1.1.1") 0 0 (strL "MKV") 2] ++
          [Artifact.mk (strL "1.1.1.1") 0 0 (strL "MKV") 2]).map keyOf).Nodup) :=
  ⟨by decide, by decide⟩

/-- C4 amended: within one run every persisted artifact's identity key
(label, batch index, rank index) is unique, batch indices increase
monotonically across the run, and the rank index is the 0-based position in
that single batch's ranked output; across repeated invocations the batch
counter restarts at 0, so collision-freedom does not extend across runs. -/
theorem persistence_keys_unique_within_run
    (decode : List Nat → List Char) (pplOf : List Nat → ℚ)
    (char_list : List (List Char)) (ec : List Char) (nb : Nat)
    (gen : Nat → List (List Nat)) (arts : List Artifact)
    (h : runArtifacts decode pplOf char_list ec nb gen = some arts) :
    (arts.map keyOf).Nodup ∧
    arts.Pairwise (fun a b => a.batchIdx ≤ b.batchIdx) ∧
    ∀ a ∈ arts, a.label = ec ∧ a.batchIdx < nb ∧
      ∃ value, mainPipeline decode pplOf char_list (gen a.batchIdx) = some value ∧
        value.get? a.rankIdx = some (a.seq, a.ppl) := by
  unfold runArtifacts at h
  rcases runArtifacts_keys_nodup h (List.pairwise_lt_range nb) with ⟨h1, h2⟩
  refine ⟨h1, h2, ?_⟩
  intro a ha
  rcases runArtifacts_batch_mem h a ha with ⟨hmem, hlab, value, hm, hv⟩
  exact ⟨hlab, List.mem_range.1 hmem, value, hm, hv⟩

theorem persistence_keys_unique_within_run_witness :
    (([Artifact.mk (strL "1.1.1.1") 0 0 (strL "MKV") 2,
       Artifact.mk (strL "1.1.1.1") 1 0 (strL "MKV") 2]).map keyOf).Nodup :=
  (persistence_keys_unique_within_run (fun _ => strL "1.1.1.1<sep>MKV<pad>")
    (fun _ => 2) special_tokens (strL "1.1.1.1") 2 (fun _ => [[0]])
    [Artifact.mk (strL "1.1.1.1") 0 0 (strL "MKV") 2,
     Artifact.mk (strL "1.1.1.1") 1 0 (strL "MKV") 2] (by decide)).1

/-- C5 counterexample: a batch holding one well-formed and one malformed
candidate yields no result at all — the IndexError aborts the whole batch —
instead of dropping only the malformed candidate and keeping the rest. -/
theorem malformed_decode_aborts_batch_cex :
    mainPipeline (fun o => if o = [0] then strL "1.1.1.1<sep>MKV<pad>"
        else strL "1.1.1.1MKV") (fun _ => 1) special_tokens [[0], [1, 0]] = none ∧
    remove_characters (strL "1.1.1.1<sep>MKV<pad>") special_tokens =
      some (strL "MKV") :=
  ⟨by decide, by decide⟩

/-- C5 amended: a decoded string without the separator makes the Token
Cleaner fail (the IndexError, `none` here — it never silently returns the
raw text); the failure is not contained to that candidate: one malformed
decode among the surviving candidates makes the whole batch fail rather
than dropping only that candidate. -/
theorem malformed_decode_error (s : List Char) (char_list : List (List Char))
    (decode : List Nat → List Char) (pplOf : List Nat → ℚ)
    (outputs : List (List Nat)) (o : List Nat)
    (hs : hasOcc sepTok s = false)
    (ho : o ∈ truncationFilter outputs)
    (hd : hasOcc sepTok (decode o) = false) :
    remove_characters s char_list = none ∧
    mainPipeline decode pplOf char_list outputs = none := by
  refine ⟨(remove_characters_none_iff s char_list).2 hs, ?_⟩
  simp only [mainPipeline]
  apply cleanAll_none_of_mem
  refine ⟨(decode o, pplOf o), ?_, (remove_characters_none_iff _ _).2 hd⟩
  apply (sortByPpl_perm _).mem_iff.2
  exact List.mem_map.2 ⟨o, ho, rfl⟩

theorem malformed_decode_error_witness :
    remove_characters (strL "1.1.1.1MKV") special_tokens = none ∧
    mainPipeline (fun o => if o = [0] then strL "1.1.1.1<sep>MKV<pad>"
        else strL "1.1.1.1MKV") (fun _ => 1) special_tokens [[0], [1, 0]] = none :=
  malformed_decode_error (strL "1.1.1.1MKV") special_tokens
    (fun o => if o = [0] then strL "1.1.1.1<sep>MKV<pad>" else strL "1.1.1.1MKV")
    (fun _ => 1) [[0], [1, 0]] [1, 0] (by decide) (by decide) (by decide)

/-- C6 counterexample: deleting the pad token from the payload splices a
fresh occurrence of the start token together, so the cleaner's output can
contain a structural token: the invariant fails for arbitrary input. -/
theorem cleaner_token_reappears_cex :
    remove_characters (strL "1.1.1.1<sep><sta<pad>rt>") special_tokens =
      some (strL "<start>") ∧
    strL "<start>" ∈ special_tokens ∧
    hasOcc (strL "<start>") (strL "<start>") = true :=
  ⟨by decide, by decide, by decide⟩

/-- C6 amended: when the second split column (the payload) contains neither
the character < nor a space — true of well-formed model output, whose
payload is an amino-acid string — no structural token occurs in it, and the
cleaner returns the payload unchanged: an output with no structural-token
occurrence, non-empty exactly when the payload is non-empty.  For arbitrary
strings the invariant fails, since removing one token can splice together
an occurrence of another. -/
theorem cleaner_clean_payload (s r : List Char)
    (h : afterFirst sepTok s = some r)
    (hlt : '<' ∉ takeUntil sepTok r) (hsp : ' ' ∉ takeUntil sepTok r) :
    remove_characters s special_tokens = some (takeUntil sepTok r) ∧
    (∀ t ∈ special_tokens, hasOcc t (takeUntil sepTok r) = false) := by
  have hno : ∀ t ∈ special_tokens, hasOcc t (takeUntil sepTok r) = false := by
    intro t ht
    by_contra hocc
    have hocc' : hasOcc t (takeUntil sepTok r) = true := by
      cases hh : hasOcc t (takeUntil sepTok r)
      · exact absurd hh hocc
      · rfl
    have hne : t ≠ [] := by
      fin_cases ht <;> decide
    have hchar : '<' ∈ t ∨ ' ' ∈ t := by
      fin_cases ht <;> decide
    rcases hchar with hc | hc
    · exact hlt (mem_of_hasOcc hne hocc' '<' hc)
    · exact hsp (mem_of_hasOcc hne hocc' ' ' hc)
  refine ⟨?_, hno⟩
  rw [remove_characters_of_afterFirst h, foldl_removeOcc_of_not_occ hno]

theorem cleaner_clean_payload_witness :
    remove_characters (strL "1.1.1.1<sep>MKV") special_tokens =
      some (takeUntil sepTok (strL "MKV")) ∧
    takeUntil sepTok (strL "MKV") = strL "MKV" ∧
    strL "MKV" ≠ [] :=
  ⟨(cleaner_clean_payload (strL "1.1.1.1<sep>MKV") (strL "MKV")
      (by decide) (by decide) (by decide)).1, by decide, by decide⟩

/-- C7 counterexample: a surviving candidate whose average negative
log-likelihood is 1000 — far above the float64 overflow threshold — makes
`math.exp` raise OverflowError: there is no +Infinity result, and the
uncaught error aborts the whole batch, so the candidate is not retained
and no ranked output exists in which it could sort last. -/
theorem scorer_overflow_cex :
    calculatePerplexity (fun q => q) 1000 = none ∧
    mainPipelineChecked (fun _ => strL "1.1.1.1<sep>MKV<pad>")
      (fun _ => calculatePerplexity (fun q => q) 1000)
      special_tokens [[0]] = none :=
  ⟨by decide, by decide⟩

/-- C7 amended: when a surviving candidate's average negative
log-likelihood exceeds the float64 overflow threshold, the Scorer's
`math.exp` raises OverflowError — a hard error, not the representable
value +Infinity — and, being uncaught, the error aborts the entire batch:
the candidate is not retained and is not placed last in any ranked
output. -/
theorem scorer_overflow_aborts_batch (expFinite : ℚ → ℚ)
    (lossOf : List Nat → ℚ) (decode : List Nat → List Char)
    (char_list : List (List Char)) (outputs : List (List Nat)) (o : List Nat)
    (ho : o ∈ truncationFilter outputs)
    (hloss : expOverflowThreshold < lossOf o) :
    calculatePerplexity expFinite (lossOf o) = none ∧
    mainPipelineChecked decode
      (fun u => calculatePerplexity expFinite (lossOf u)) char_list outputs
      = none := by
  have hnone : calculatePerplexity expFinite (lossOf o) = none := by
    simp [calculatePerplexity, hloss]
  refine ⟨hnone, ?_⟩
  unfold mainPipelineChecked
  rw [scoreAll_none_of_mem ⟨o, ho, hnone⟩]

theorem scorer_overflow_aborts_batch_witness :
    calculatePerplexity (fun q => q)
      ((fun u : List Nat => if u = [0] then (1000 : ℚ) else 1) [0]) = none ∧
    mainPipelineChecked (fun _ => strL "1.1.1.1<sep>MKV<pad>")
      (fun u => calculatePerplexity (fun q => q)
        ((fun u : List Nat => if u = [0] then (1000 : ℚ) else 1) u))
      special_tokens [[0], [1, 0]] = none :=
  scorer_overflow_aborts_batch (fun q => q)
    (fun u => if u = [0] then 1000 else 1)
    (fun _ => strL "1.1.1.1<sep>MKV<pad>") special_tokens [[0], [1, 0]] [0]
    (by decide) (by decide)

/-- C8: a batch in which no sample survives the truncation filter triggers
the diagnostic, returns the empty result list rather than raising, and the
run carries on: whenever every batch's pipeline succeeds, the whole run
still yields its artifacts, none of them from the empty batch. -/
theorem empty_batch_nonfatal (decode : List Nat → List Char)
    (pplOf : List Nat → ℚ) (char_list : List (List Char)) (ec : List Char)
    (nb : Nat) (gen : Nat → List (List Nat)) (i : Nat)
    (hi : i < nb) (hempty : truncationFilter (gen i) = []) :
    emptyBatchWarning (gen i) = true ∧
    mainPipeline decode pplOf char_list (gen i) = some [] ∧
    ((∀ j, j < nb → (mainPipeline decode pplOf char_list (gen j)).isSome = true) →
      ∃ arts, runArtifacts decode pplOf char_list ec nb gen = some arts ∧
        ∀ a ∈ arts, a.batchIdx ≠ i) := by
  have hmain : mainPipeline decode pplOf char_list (gen i) = some [] := by
    simp [mainPipeline, hempty, sortByPpl, cleanAll]
  refine ⟨by simp [emptyBatchWarning, hempty], hmain, ?_⟩
  intro hall
  have hsome : ∀ j ∈ List.range nb,
      ((fun j => batchArtifacts decode pplOf char_list ec j (gen j)) j).isSome
        = true := by
    intro j hj
    have hj2 := hall j (List.mem_range.1 hj)
    simpa [batchArtifacts] using hj2
  rcases collectBatches_some_of_forall _ (List.range nb) hsome with ⟨arts, hc⟩
  refine ⟨arts, hc, ?_⟩
  intro a ha hbi
  rcases collectBatches_mem_struct _ _ _ hc a ha with ⟨j, _, l, hfl, hal⟩
  have hbj : a.batchIdx = j := (batchArtifacts_fields hfl a hal).1
  have hji : j = i := by omega
  subst hji
  rw [show batchArtifacts decode pplOf char_list ec j (gen j) =
      some [] from by simp [batchArtifacts, hmain, enumFromL]] at hfl
  simp only [Option.some.injEq] at hfl
  subst hfl
  simp at hal

theorem empty_batch_nonfatal_witness :
    mainPipeline (fun _ => strL "1.1.1.1<sep>MKV<pad>") (fun _ => 2)
      special_tokens ((fun j => if j = 0 then [[1]] else [[0]]) 0) = some [] ∧
    (∃ arts, runArtifacts (fun _ => strL "1.1.1.1<sep>MKV<pad>") (fun _ => 2)
        special_tokens (strL "1.1.1.1") 2
        (fun j => if j = 0 then [[1]] else [[0]]) = some arts ∧
      ∀ a ∈ arts, a.batchIdx ≠ 0) := by
  have h := empty_batch_nonfatal (fun _ => strL "1.1.1.1<sep>MKV<pad>")
    (fun _ => 2) special_tokens (strL "1.1.1.1") 2
    (fun j => if j = 0 then [[1]] else [[0]]) 0 (by decide) (by decide)
  exact ⟨h.2.1, h.2.2 (by decide)⟩

/-- C9: the workflow's call into the task omits the required mode and
num_sequences parameters and passes keywords the task does not declare, so
the call raises a TypeError before the task body runs; and the task's
subprocess invocation of the generation script passes flags its argument
parser does not define, so parse_args rejects it before any model loading
or sampling.  Sequence generation is therefore never reached through the
public workflow entry point. -/
theorem workflow_interface_mismatch :
    kwCallAccepted zymctrl_task_params zymctrl_task_required
      zymctrl_workflow_call = false ∧
    ("mode" ∈ zymctrl_task_required ∧ "mode" ∉ zymctrl_workflow_call) ∧
    ("num_sequences" ∈ zymctrl_task_required ∧
      "num_sequences" ∉ zymctrl_workflow_call) ∧
    ("num_batches" ∈ zymctrl_workflow_call ∧
      "num_batches" ∉ zymctrl_task_params) ∧
    ("num_return_sequences" ∈ zymctrl_workflow_call ∧
      "num_return_sequences" ∉ zymctrl_task_params) ∧
    ("validation_split" ∈ zymctrl_workflow_call ∧
      "validation_split" ∉ zymctrl_task_params) ∧
    cliCallAccepted generate_cli_flags task_generate_flags = false ∧
    ("--batch_id" ∈ task_generate_flags ∧ "--batch_id" ∉ generate_cli_flags) ∧
    ("--num_sequences" ∈ task_generate_flags ∧
      "--num_sequences" ∉ generate_cli_flags) := by
  decide

/-- C10: run standalone, the script converts the batch count with int() but
forwards the per-batch sample count to the sampling call as the raw string
"20" — its parser declares it with a string default and no converter — even
though the adapter contract types the sample count as an integer. -/
theorem num_return_sequences_unconverted :
    forwarded_num_return_sequences = PyVal.str "20" ∧
    isIntVal forwarded_num_return_sequences = false ∧
    loop_bound = some 20 :=
  ⟨rfl, rfl, by decide⟩

end ZymCTRL
